import Mathlib

set_option linter.unusedVariables false

/-!
Shallow embedding of the string-interning engine in `src/src/lib.rs`
(`StringInternal` and its methods `new`, `with_capacity`,
`with_capacity_for_internals`, `add`, `get`, `intern`), together with
proofs of the specification's properties.

Modelling choices:
* Text values (`&str` / `String` content) are `List Char`; `len` is list
  length.  All capacity arithmetic in the source is on lengths, and the
  byte-versus-char distinction plays no role in any property proved here.
* `StringId(usize)` is a `Nat`.
* A Rust `String` buffer is a `Buffer`: its current content (`data`) plus
  its allocated `cap`acity.  `String::with_capacity c` is `⟨[], c⟩`;
  `push_str` appends to `data` without touching `cap` (the development
  proves the source's claim that the append stays within capacity).
* The `HashMap<&'a str, StringId>` dedup index is an association list
  with exact key equality, looked up front-to-back; `insert` of an
  absent key is a cons.
* `usize::next_power_of_two` (a Rust standard-library call, not code of
  this repository) is `2 ^ Nat.clog 2 n`: the smallest power of two that
  is `≥ n`, with `0 ↦ 1`, exactly its documented behaviour.
* `get` runs `assert!(string_id.0 <= self.interned.len())` and then
  indexes the vector; a failed assertion and an out-of-bounds index are
  both panics, kept distinct as `GetResult.assertFailed` and
  `GetResult.indexOutOfBounds` so that which check fires is provable.
-/

/-- Model of Rust's `usize::next_power_of_two`: the smallest power of two
greater than or equal to `n` (and `1` for `n = 0`). -/
def nextPowerOfTwoSpec (n : Nat) : Nat :=
  2 ^ Nat.clog 2 n

/-- A Rust `String` buffer: current content plus allocated capacity.
`data.length` models `String::len`, `cap` models `String::capacity`. -/
structure Buffer where
  data : List Char
  cap : Nat
deriving DecidableEq

/-- The interner state of `StringInternal<'a>`:
`strings` is the `HashMap<&'a str, StringId>` dedup index (as an
association list), `buffer` the active arena, `buffers` the retired
arenas, `interned` the identifier table `Vec<&'a str>` (each handle
replaced by the text it denotes). -/
structure StringInternal where
  strings : List (List Char × Nat)
  buffer : Buffer
  buffers : List Buffer
  interned : List (List Char)
deriving DecidableEq

/-- `HashMap::get` on the dedup index: first entry with an equal key. -/
def lookupStr (l : List (List Char × Nat)) (s : List Char) : Option Nat :=
  match l with
  | [] => none
  | (k, v) :: rest => if k = s then some v else lookupStr rest s

namespace StringInternal

/-- `StringInternal::new`: empty index, active arena of capacity 100,
no retired arenas, empty identifier table.  (The `Vec::with_capacity`
hint on `interned` has no observable effect and is not modelled.) -/
def new : StringInternal :=
  { strings := []
    buffer := { data := [], cap := 100 }
    buffers := []
    interned := [] }

/-- `StringInternal::with_capacity`. -/
def with_capacity (capacity : Nat) : StringInternal :=
  { strings := []
    buffer := { data := [], cap := capacity }
    buffers := []
    interned := [] }

/-- `StringInternal::with_capacity_for_internals`.  The second argument
only pre-sizes the identifier table's allocation, which is not
observable, so the resulting state coincides with `with_capacity`. -/
def with_capacity_for_internals (capacity : Nat)
    (capacity_internal_strings : Nat) : StringInternal :=
  { strings := []
    buffer := { data := [], cap := capacity }
    buffers := []
    interned := [] }

/-- The retirement branch at the start of `StringInternal::intern`:
`if len + self.buffer.len() >= self.buffer.capacity()` replace the
active arena by `String::with_capacity(len + new_capacity)` where
`new_capacity = self.buffer.capacity().next_power_of_two()`, pushing
the old arena onto `self.buffers`. -/
def retireIfNeeded (self : StringInternal) (len : Nat) : StringInternal :=
  if self.buffer.cap ≤ len + self.buffer.data.length then
    let new_capacity := nextPowerOfTwoSpec self.buffer.cap
    { self with
      buffer := { data := [], cap := len + new_capacity }
      buffers := self.buffers ++ [self.buffer] }
  else self

/-- `StringInternal::intern`: retire the active arena if needed, append
the string's bytes, record the slice `&self.buffer[old_len..new_len]`
in the identifier table, and return the slice together with
`StringId(self.interned.len() - 1)`. -/
def intern (self : StringInternal) (s : List Char) :
    (List Char × Nat) × StringInternal :=
  let len := s.length
  let self1 := retireIfNeeded self len
  let old_len := self1.buffer.data.length
  let new_len := old_len + len
  let new_data := self1.buffer.data ++ s
  let slice := (new_data.drop old_len).take (new_len - old_len)
  let self2 : StringInternal :=
    { self1 with
      buffer := { self1.buffer with data := new_data }
      interned := self1.interned ++ [slice] }
  ((slice, self2.interned.length - 1), self2)

/-- `StringInternal::add`: dedup-index lookup; on a hit return the
stored identifier with the state untouched, on a miss intern and insert
the returned slice into the index. -/
def add (self : StringInternal) (s : List Char) : Nat × StringInternal :=
  match lookupStr self.strings s with
  | some val => (val, self)
  | none =>
    let r := intern self s
    (r.1.2, { r.2 with strings := (r.1.1, r.1.2) :: r.2.strings })

/-- Outcome of `StringInternal::get`: a returned text value, a failure
of the `assert!` guard, or an out-of-bounds vector index.  The latter
two are both panics in the source. -/
inductive GetResult where
  | ok (s : List Char)
  | assertFailed
  | indexOutOfBounds
deriving DecidableEq

/-- The condition of the `assert!(string_id.0 <= self.interned.len())`
guard in `StringInternal::get`. -/
def get_assert_cond (self : StringInternal) (string_id : Nat) : Bool :=
  string_id ≤ self.interned.length

/-- `StringInternal::get`: assert `string_id.0 <= self.interned.len()`,
then index `self.interned[string_id.0]`. -/
def get (self : StringInternal) (string_id : Nat) : GetResult :=
  if get_assert_cond self string_id then
    match self.interned[string_id]? with
    | some s => GetResult.ok s
    | none => GetResult.indexOutOfBounds
  else GetResult.assertFailed

/-- Fold of `add` over a list of strings, keeping only the final state. -/
def addAll (self : StringInternal) (ws : List (List Char)) : StringInternal :=
  match ws with
  | [] => self
  | w :: rest => addAll (add self w).2 rest

/-- Fold of `add` over a list of strings, also recording the identifier
each call returned. -/
def addTrace (self : StringInternal) (ws : List (List Char)) :
    List Nat × StringInternal :=
  match ws with
  | [] => ([], self)
  | w :: rest =>
    let r := add self w
    let r2 := addTrace r.2 rest
    (r.1 :: r2.1, r2.2)

/-- The dedup-index/identifier-table coherence invariant: every entry of
the dedup index maps its key to a table slot holding exactly that key's
text.  It holds in every reachable state and is what makes the
round-trip property true. -/
def Inv (st : StringInternal) : Prop :=
  ∀ k v, lookupStr st.strings k = some v → st.interned[v]? = some k

/-- States reachable through the public interface: any constructor
followed by any sequence of `add` calls. -/
inductive Reachable : StringInternal → Prop
  | new : Reachable new
  | with_capacity (c : Nat) : Reachable (with_capacity c)
  | with_capacity_for_internals (c n : Nat) :
      Reachable (with_capacity_for_internals c n)
  | add (st : StringInternal) (s : List Char) :
      Reachable st → Reachable (add st s).2

end StringInternal

/-! ## Basic lemmas about the embedded operations -/

theorem nextPowerOfTwoSpec_ge (n : Nat) : n ≤ nextPowerOfTwoSpec n :=
  Nat.le_pow_clog (by decide) n

theorem getElem?_some_lt {l : List (List Char)} {v : Nat} {k : List Char}
    (h : l[v]? = some k) : v < l.length := by
  by_contra hc
  rw [List.getElem?_eq_none_iff.mpr (by omega)] at h
  exact Option.noConfusion h

theorem lookupStr_nil (s : List Char) : lookupStr [] s = none := rfl

theorem lookupStr_cons (k : List Char) (v : Nat) (rest : List (List Char × Nat))
    (s : List Char) :
    lookupStr ((k, v) :: rest) s = if k = s then some v else lookupStr rest s := rfl

namespace StringInternal

theorem retire_strings (self : StringInternal) (len : Nat) :
    (retireIfNeeded self len).strings = self.strings := by
  unfold retireIfNeeded
  split <;> rfl

theorem retire_interned (self : StringInternal) (len : Nat) :
    (retireIfNeeded self len).interned = self.interned := by
  unfold retireIfNeeded
  split <;> rfl

theorem retire_pos (self : StringInternal) (len : Nat)
    (h : self.buffer.cap ≤ len + self.buffer.data.length) :
    retireIfNeeded self len =
      { self with
        buffer := { data := [], cap := len + nextPowerOfTwoSpec self.buffer.cap }
        buffers := self.buffers ++ [self.buffer] } := by
  unfold retireIfNeeded
  rw [if_pos h]

theorem retire_neg (self : StringInternal) (len : Nat)
    (h : ¬ self.buffer.cap ≤ len + self.buffer.data.length) :
    retireIfNeeded self len = self := by
  unfold retireIfNeeded
  rw [if_neg h]

/-- After the retirement check, the active arena always has room for the
incoming string. -/
theorem retire_room (self : StringInternal) (len : Nat) :
    (retireIfNeeded self len).buffer.data.length + len ≤
      (retireIfNeeded self len).buffer.cap := by
  by_cases h : self.buffer.cap ≤ len + self.buffer.data.length
  · rw [retire_pos self len h]
    simp
  · rw [retire_neg self len h]
    omega

theorem slice_eq (d s : List Char) :
    ((d ++ s).drop d.length).take (d.length + s.length - d.length) = s := by
  rw [List.drop_left]
  simp

/-- Full characterisation of `intern`: the returned slice is the input
string, the identifier is the old table length, the table grows by the
new slice, and the active buffer is the post-retirement buffer with the
string appended. -/
theorem intern_eq (self : StringInternal) (s : List Char) :
    intern self s =
      ((s, self.interned.length),
       { strings := self.strings
         buffer := { data := (retireIfNeeded self s.length).buffer.data ++ s
                     cap := (retireIfNeeded self s.length).buffer.cap }
         buffers := (retireIfNeeded self s.length).buffers
         interned := self.interned ++ [s] }) := by
  unfold intern
  simp [slice_eq, retire_interned, retire_strings]

theorem add_hit (self : StringInternal) (s : List Char) (v : Nat)
    (h : lookupStr self.strings s = some v) : add self s = (v, self) := by
  unfold add
  rw [h]

/-- Full characterisation of `add` on a dedup-index miss. -/
theorem add_miss (self : StringInternal) (s : List Char)
    (h : lookupStr self.strings s = none) :
    add self s =
      (self.interned.length,
       { strings := (s, self.interned.length) :: self.strings
         buffer := { data := (retireIfNeeded self s.length).buffer.data ++ s
                     cap := (retireIfNeeded self s.length).buffer.cap }
         buffers := (retireIfNeeded self s.length).buffers
         interned := self.interned ++ [s] }) := by
  unfold add
  rw [h]
  simp [intern_eq]

/-! ## The coherence invariant and its preservation -/

theorem inv_of_strings_nil (st : StringInternal) (h : st.strings = []) :
    Inv st := by
  intro k v hv
  rw [h, lookupStr_nil] at hv
  exact Option.noConfusion hv

theorem inv_add (st : StringInternal) (s : List Char) (hinv : Inv st) :
    Inv (add st s).2 := by
  cases hl : lookupStr st.strings s with
  | some v =>
    rw [add_hit st s v hl]
    exact hinv
  | none =>
    rw [add_miss st s hl]
    intro k v hv
    rw [lookupStr_cons] at hv
    by_cases hks : s = k
    · rw [if_pos hks] at hv
      injection hv with hv
      subst hks
      rw [← hv]
      exact List.getElem?_concat_length _ _
    · rw [if_neg hks] at hv
      have h1 := hinv k v hv
      have h2 := getElem?_some_lt h1
      show (st.interned ++ [s])[v]? = some k
      rw [List.getElem?_append_left h2]
      exact h1

theorem reachable_inv (st : StringInternal) (h : Reachable st) : Inv st := by
  induction h with
  | new => exact inv_of_strings_nil _ rfl
  | with_capacity c => exact inv_of_strings_nil _ rfl
  | with_capacity_for_internals c n => exact inv_of_strings_nil _ rfl
  | add st s hst ih => exact inv_add st s ih

/-! ## Lookup and resolution lemmas -/

theorem get_eq_ok (st : StringInternal) (id : Nat) (t : List Char)
    (h : st.interned[id]? = some t) : get st id = GetResult.ok t := by
  have hlt : id < st.interned.length := getElem?_some_lt h
  unfold get
  rw [if_pos (by simp [get_assert_cond]; omega), h]

/-- The round-trip property relative to the invariant: in any coherent
state, `get` on the identifier `add` returns yields the added text. -/
theorem add_get_roundtrip (st : StringInternal) (hinv : Inv st)
    (s : List Char) : get (add st s).2 (add st s).1 = GetResult.ok s := by
  cases hl : lookupStr st.strings s with
  | some v =>
    rw [add_hit st s v hl]
    exact get_eq_ok st v s (hinv s v hl)
  | none =>
    rw [add_miss st s hl]
    exact get_eq_ok _ _ _ (List.getElem?_concat_length _ _)

/-- After `add st s`, the dedup index maps `s` to the returned id. -/
theorem lookup_after_add (st : StringInternal) (s : List Char) :
    lookupStr (add st s).2.strings s = some (add st s).1 := by
  cases hl : lookupStr st.strings s with
  | some v =>
    rw [add_hit st s v hl]
    exact hl
  | none =>
    rw [add_miss st s hl]
    show lookupStr ((s, st.interned.length) :: st.strings) s = _
    rw [lookupStr_cons, if_pos rfl]

/-- An existing dedup-index binding survives any later `add`. -/
theorem lookup_persist (st : StringInternal) (w k : List Char) (v : Nat)
    (h : lookupStr st.strings k = some v) :
    lookupStr (add st w).2.strings k = some v := by
  cases hl : lookupStr st.strings w with
  | some u =>
    rw [add_hit st w u hl]
    exact h
  | none =>
    rw [add_miss st w hl]
    show lookupStr ((w, st.interned.length) :: st.strings) k = _
    rw [lookupStr_cons]
    by_cases hwk : w = k
    · subst hwk
      rw [h] at hl
      exact Option.noConfusion hl
    · rw [if_neg hwk]
      exact h

theorem lookup_persist_addAll (ws : List (List Char)) (st : StringInternal)
    (k : List Char) (v : Nat) (h : lookupStr st.strings k = some v) :
    lookupStr (addAll st ws).strings k = some v := by
  induction ws generalizing st with
  | nil => exact h
  | cons w rest ih => exact ih (add st w).2 (lookup_persist st w k v h)

/-- Existing identifier-table slots are untouched by one `add`, and the
table never shrinks. -/
theorem add_interned_frame (st : StringInternal) (w : List Char) (id : Nat)
    (h : id < st.interned.length) :
    (add st w).2.interned[id]? = st.interned[id]? ∧
    st.interned.length ≤ (add st w).2.interned.length := by
  cases hl : lookupStr st.strings w with
  | some v =>
    rw [add_hit st w v hl]
    exact ⟨rfl, Nat.le_refl _⟩
  | none =>
    rw [add_miss st w hl]
    exact ⟨List.getElem?_append_left h, by simp⟩

theorem addAll_interned_frame (ws : List (List Char)) (st : StringInternal)
    (id : Nat) (h : id < st.interned.length) :
    (addAll st ws).interned[id]? = st.interned[id]? ∧
    st.interned.length ≤ (addAll st ws).interned.length := by
  induction ws generalizing st with
  | nil => exact ⟨rfl, Nat.le_refl _⟩
  | cons w rest ih =>
    have h1 := add_interned_frame st w id h
    have h2 := ih (add st w).2 (Nat.lt_of_lt_of_le h h1.2)
    exact ⟨h2.1.trans h1.1, Nat.le_trans h1.2 h2.2⟩

/-- Identifier trace of adding pairwise-distinct, all-unseen strings:
consecutive identifiers starting at the current table length. -/
theorem addTrace_fresh (ws : List (List Char)) :
    ∀ st : StringInternal, ws.Nodup →
      (∀ w ∈ ws, lookupStr st.strings w = none) →
      (addTrace st ws).1 = List.range' st.interned.length ws.length := by
  induction ws with
  | nil =>
    intro st _ _
    rfl
  | cons w rest ih =>
    intro st hnd hfresh
    have hw : lookupStr st.strings w = none := hfresh w (by simp)
    have hfst : (add st w).1 = st.interned.length := by rw [add_miss st w hw]
    have hrest : ∀ w' ∈ rest, lookupStr (add st w).2.strings w' = none := by
      intro w' hw'
      rw [add_miss st w hw]
      show lookupStr ((w, st.interned.length) :: st.strings) w' = none
      rw [lookupStr_cons,
        if_neg (fun hc : w = w' => (List.nodup_cons.mp hnd).1 (hc ▸ hw'))]
      exact hfresh w' (List.mem_cons_of_mem w hw')
    have hlen : (add st w).2.interned.length = st.interned.length + 1 := by
      rw [add_miss st w hw]
      simp
    have ihr := ih (add st w).2 (List.nodup_cons.mp hnd).2 hrest
    show (add st w).1 :: (addTrace (add st w).2 rest).1 = _
    rw [hfst, ihr, hlen, List.length_cons, List.range'_succ]

/-! ## The specification's claims -/

/-- Claim C1: Round-trip.  For every text value `T` and every reachable
interner state, calling `get` on the identifier returned by `add T`
returns exactly `T`. -/
theorem C1_roundtrip (st : StringInternal) (h : Reachable st)
    (s : List Char) : get (add st s).2 (add st s).1 = GetResult.ok s :=
  add_get_roundtrip st (reachable_inv st h) s

/-- Witness for C1: the fresh interner and the text `"a"`. -/
theorem C1_roundtrip_witness :
    get (add new ['a']).2 (add new ['a']).1 = GetResult.ok ['a'] :=
  C1_roundtrip new Reachable.new ['a']

/-- Claim C2: Idempotence/uniqueness.  For every text value `T` and
every reachable state, `add T` after the first `add T` — with any
sequence of other `add` calls in between — returns the identifier the
first call returned. -/
theorem C2_idempotence (st : StringInternal) (h : Reachable st)
    (T : List Char) (ws : List (List Char)) :
    (add (addAll (add st T).2 ws) T).1 = (add st T).1 := by
  have h2 := lookup_persist_addAll ws (add st T).2 T (add st T).1
    (lookup_after_add st T)
  rw [add_hit _ _ _ h2]

/-- Witness for C2: re-adding `"a"` after interning `"b"` and `"c"`. -/
theorem C2_idempotence_witness :
    (add (addAll (add new ['a']).2 [['b'], ['c']]) ['a']).1 =
      (add new ['a']).1 :=
  C2_idempotence new Reachable.new ['a'] [['b'], ['c']]

/-- Claim C3: Invalid identifier fail-fast.  In every state, `get` on an
identifier whose index is at least the identifier-table length produces
a fault (a failed assertion or an out-of-bounds index, both panics) and
never returns a text value. -/
theorem C3_invalid_id_faults (st : StringInternal) (id : Nat)
    (h : st.interned.length ≤ id) :
    (∀ s, get st id ≠ GetResult.ok s) ∧
    (get st id = GetResult.assertFailed ∨
      get st id = GetResult.indexOutOfBounds) := by
  by_cases hc : get_assert_cond st id = true
  · have hg : get st id = GetResult.indexOutOfBounds := by
      unfold get
      rw [if_pos hc, List.getElem?_eq_none_iff.mpr h]
    rw [hg]
    exact ⟨fun s hs => GetResult.noConfusion hs, Or.inr rfl⟩
  · have hg : get st id = GetResult.assertFailed := by
      unfold get
      rw [if_neg hc]
    rw [hg]
    exact ⟨fun s hs => GetResult.noConfusion hs, Or.inl rfl⟩

/-- Witness for C3: identifier 0 against the fresh (empty) interner. -/
theorem C3_invalid_id_faults_witness :
    get new 0 ≠ GetResult.ok [] ∧
    (get new 0 = GetResult.assertFailed ∨
      get new 0 = GetResult.indexOutOfBounds) :=
  ⟨(C3_invalid_id_faults new 0 (by decide)).1 [],
   (C3_invalid_id_faults new 0 (by decide)).2⟩

/-- Claim C4: Density.  A fresh string receives the identifier equal to
the new table length minus one (the table growing by exactly one), and
adding pairwise-distinct strings to a fresh interner issues the
identifiers `0, 1, 2, …` in order, the k-th distinct string getting
identifier k. -/
theorem C4_density :
    (∀ (st : StringInternal) (T : List Char),
        lookupStr st.strings T = none →
        (add st T).1 + 1 = (add st T).2.interned.length ∧
        (add st T).2.interned.length = st.interned.length + 1) ∧
    (∀ ws : List (List Char), ws.Nodup →
        (addTrace new ws).1 = List.range ws.length) := by
  constructor
  · intro st T h
    rw [add_miss st T h]
    constructor <;> simp
  · intro ws h
    rw [addTrace_fresh ws new h (fun w _ => rfl), List.range_eq_range']
    rfl

/-- Witness for C4: one fresh add, and the trace of adding `"a"`, `"b"`. -/
theorem C4_density_witness :
    ((add new ['a']).1 + 1 = (add new ['a']).2.interned.length ∧
      (add new ['a']).2.interned.length = new.interned.length + 1) ∧
    (addTrace new [['a'], ['b']]).1 = List.range 2 :=
  ⟨C4_density.1 new ['a'] rfl, C4_density.2 [['a'], ['b']] (by decide)⟩

/-- Claim C5: Arena retirement step.  On adding an unseen string of
length L: retirement happens exactly when `L + active.length ≥
active.capacity`; when it happens the old arena is moved unchanged to
the end of the retired collection, and the new active capacity equals
`L + next_power_of_two(old capacity)`, hence is at least the next
power of two above the old capacity (itself at least the old capacity)
and at least L; when it does not happen the retired collection and the
active capacity are untouched. -/
theorem C5_arena_retirement :
    (∀ (st : StringInternal) (s : List Char),
        lookupStr st.strings s = none →
        st.buffer.cap ≤ s.length + st.buffer.data.length →
        (add st s).2.buffers = st.buffers ++ [st.buffer] ∧
        (add st s).2.buffer.cap =
          s.length + nextPowerOfTwoSpec st.buffer.cap ∧
        st.buffer.cap ≤ nextPowerOfTwoSpec st.buffer.cap ∧
        nextPowerOfTwoSpec st.buffer.cap ≤ (add st s).2.buffer.cap ∧
        s.length ≤ (add st s).2.buffer.cap) ∧
    (∀ (st : StringInternal) (s : List Char),
        lookupStr st.strings s = none →
        s.length + st.buffer.data.length < st.buffer.cap →
        (add st s).2.buffers = st.buffers ∧
        (add st s).2.buffer.cap = st.buffer.cap) := by
  constructor
  · intro st s hmiss hfull
    rw [add_miss st s hmiss, retire_pos st s.length hfull]
    refine ⟨rfl, rfl, nextPowerOfTwoSpec_ge _, ?_, ?_⟩ <;> simp
  · intro st s hmiss hroom
    rw [add_miss st s hmiss, retire_neg st s.length (by omega)]
    exact ⟨rfl, rfl⟩

/-- Witness for C5: `"xyz"` into a capacity-3 interner (forces
retirement), and `"a"` into the fresh capacity-100 interner (does
not). -/
theorem C5_arena_retirement_witness :
    ((add (with_capacity 3) ['x', 'y', 'z']).2.buffers =
        (with_capacity 3).buffers ++ [(with_capacity 3).buffer] ∧
      (add (with_capacity 3) ['x', 'y', 'z']).2.buffer.cap =
        (['x', 'y', 'z'] : List Char).length +
          nextPowerOfTwoSpec (with_capacity 3).buffer.cap ∧
      (with_capacity 3).buffer.cap ≤
        nextPowerOfTwoSpec (with_capacity 3).buffer.cap ∧
      nextPowerOfTwoSpec (with_capacity 3).buffer.cap ≤
        (add (with_capacity 3) ['x', 'y', 'z']).2.buffer.cap ∧
      (['x', 'y', 'z'] : List Char).length ≤
        (add (with_capacity 3) ['x', 'y', 'z']).2.buffer.cap) ∧
    ((add new ['a']).2.buffers = new.buffers ∧
      (add new ['a']).2.buffer.cap = new.buffer.cap) :=
  ⟨C5_arena_retirement.1 (with_capacity 3) ['x', 'y', 'z'] rfl (by decide),
   C5_arena_retirement.2 new ['a'] rfl (by decide)⟩

/-- Claim C6: Append never reallocates.  On adding an unseen string, at
the moment its characters are appended the post-retirement active
arena's length plus the string's length is within the arena's capacity,
and the append writes the string after the existing content without
moving it. -/
theorem C6_append_within_capacity (st : StringInternal) (s : List Char)
    (hmiss : lookupStr st.strings s = none) :
    (retireIfNeeded st s.length).buffer.data.length + s.length ≤
      (retireIfNeeded st s.length).buffer.cap ∧
    (add st s).2.buffer.data =
      (retireIfNeeded st s.length).buffer.data ++ s := by
  refine ⟨retire_room st s.length, ?_⟩
  rw [add_miss st s hmiss]

/-- Witness for C6: adding `"a"` to the fresh interner. -/
theorem C6_append_within_capacity_witness :
    (retireIfNeeded new (['a'] : List Char).length).buffer.data.length +
        (['a'] : List Char).length ≤
      (retireIfNeeded new (['a'] : List Char).length).buffer.cap ∧
    (add new ['a']).2.buffer.data =
      (retireIfNeeded new (['a'] : List Char).length).buffer.data ++ ['a'] :=
  C6_append_within_capacity new ['a'] rfl

/-- Claim C7: Stability of interned content.  For every identifier
already issued (index below the table length), `get` returns the same
result after any subsequent sequence of `add` calls, including ones
forcing arena retirement and growth. -/
theorem C7_stability (st : StringInternal) (id : Nat)
    (ws : List (List Char)) (hid : id < st.interned.length) :
    get (addAll st ws) id = get st id := by
  obtain ⟨h1, h2⟩ := addAll_interned_frame ws st id hid
  cases ht : st.interned[id]? with
  | none => exact absurd (List.getElem?_eq_none_iff.mp ht) (by omega)
  | some t =>
    rw [get_eq_ok st id t ht, get_eq_ok (addAll st ws) id t (by rw [h1, ht])]

/-- Witness for C7: identifier 0 survives two later adds. -/
theorem C7_stability_witness :
    get (addAll (add new ['a']).2 [['b'], ['c']]) 0 =
      get (add new ['a']).2 0 :=
  C7_stability (add new ['a']).2 0 [['b'], ['c']] (by decide)

/-- Claim C8: Dedup hit is pure.  When `add` is called with content
already in the dedup index, the entire interner state is unchanged and
the stored identifier is returned. -/
theorem C8_hit_pure (st : StringInternal) (s : List Char) (v : Nat)
    (h : lookupStr st.strings s = some v) :
    (add st s).2 = st ∧ (add st s).1 = v := by
  rw [add_hit st s v h]
  exact ⟨rfl, rfl⟩

/-- Witness for C8: re-adding `"a"` right after interning it. -/
theorem C8_hit_pure_witness :
    (add (add new ['a']).2 ['a']).2 = (add new ['a']).2 ∧
    (add (add new ['a']).2 ['a']).1 = 0 :=
  C8_hit_pure (add new ['a']).2 ['a'] 0 (by decide)

/-- Claim C9: Empty string.  From any reachable state, `add ""` twice
returns equal identifiers, and `get` on that identifier returns the
empty text value. -/
theorem C9_empty_string (st : StringInternal) (h : Reachable st) :
    (add (add st []).2 []).1 = (add st []).1 ∧
    get (add (add st []).2 []).2 (add (add st []).2 []).1 =
      GetResult.ok [] := by
  have h2 := add_hit (add st []).2 [] (add st []).1 (lookup_after_add st [])
  constructor
  · rw [h2]
  · rw [h2]
    exact add_get_roundtrip st (reachable_inv st h) []

/-- Witness for C9: the fresh interner. -/
theorem C9_empty_string_witness :
    (add (add new []).2 []).1 = (add new []).1 ∧
    get (add (add new []).2 []).2 (add (add new []).2 []).1 =
      GetResult.ok [] :=
  C9_empty_string new Reachable.new

/-- Claim C10: the `assert` in `get` uses `≤`, so for the out-of-range
identifier whose index equals the table length the assertion succeeds,
and the fault comes only from the subsequent out-of-bounds vector
index — the assertion alone does not reject every out-of-range
identifier. -/
theorem C10_assert_gap (st : StringInternal) :
    get_assert_cond st st.interned.length = true ∧
    get st st.interned.length = GetResult.indexOutOfBounds := by
  constructor
  · simp [get_assert_cond]
  · unfold get
    rw [if_pos (by simp [get_assert_cond]),
      List.getElem?_eq_none_iff.mpr (Nat.le_refl _)]

end StringInternal
